import Mathlib

/-!
Shallow embedding of `ipv8/attestation/wallet/primitives/structs.py`:
the binary wire codec for Boneh-cryptosystem public/private keys,
bit-pair attestations and aggregate attestations.

Byte strings are modelled as `List Nat` (each element a byte value).
Fallible operations (Python exceptions: `IndexError`, `TypeError`)
return `Option`.
-/

namespace PyIPv8

/-- Fuel-driven big-endian byte extraction: for `n ≤ fuel` and `0 < n` this
computes the minimal big-endian base-256 digit list of `n`.  The source
(`_num_to_str`) obtains the same list via the hex representation of `n`,
padded on the left to an even number of hex digits and grouped into bytes. -/
def numToStrGo : Nat → Nat → List Nat
  | 0, n => [n % 256]
  | f + 1, n => if n < 256 then [n] else numToStrGo f (n / 256) ++ [n % 256]

/-- `_num_to_str(num)`: minimal big-endian byte encoding of a non-negative
integer; `0` encodes as the single byte `0x00` (hex `'0'` is padded to `'00'`). -/
def _num_to_str (num : Nat) : List Nat :=
  if num = 0 then [0] else numToStrGo num num

/-- `_str_to_num(s)`: big-endian accumulation `out = (out << 8) | byte`
over the bytes of `s`, starting from `0`. -/
def _str_to_num (s : List Nat) : Nat :=
  s.foldl (fun out b => (out <<< 8) ||| b) 0

/-- Reference big-endian positional value of a byte list, used in proofs;
agrees with `_str_to_num` whenever every element is an actual byte (< 256). -/
def beVal (s : List Nat) : Nat :=
  s.foldl (fun out b => out * 256 + b) 0

/-- `_pack(num)`: the encoded bytes of `num` preceded by the encoding of
their count.  Note the length is itself passed through `_num_to_str`,
so no error is raised when the body exceeds 255 bytes: the length
prefix silently becomes more than one byte. -/
def _pack (num : Nat) : List Nat :=
  _num_to_str (_num_to_str num).length ++ _num_to_str num

/-- `_unpack(s)`: reads byte 0 as the length `l`, decodes bytes `1..l`
(as far as present: Python slicing truncates silently) and returns the
tail from offset `l+1` on.  `none` models the `IndexError` raised by
`s[0]` on an empty string. -/
def _unpack (s : List Nat) : Option (Nat × List Nat) :=
  match s with
  | [] => none
  | l :: rest => some (_str_to_num (rest.take l), rest.drop l)

/-- Concatenation of the frames of a list of integers (proof helper used to
state facts about buffers that are sequences of `_pack` outputs). -/
def packs (xs : List Nat) : List Nat :=
  (xs.map _pack).flatten

/-- The canonical encoding of `n` fits a single length-prefix byte. -/
def fits (n : Nat) : Prop := (_num_to_str n).length ≤ 255

instance (n : Nat) : Decidable (fits n) := by unfold fits; infer_instance

/-- Modelled from the spec: the field-element type `FP2Value`
(`cryptosystem/value.py` is not part of the shown sources).  Per the spec
it is consumed here only as an opaque algebraic value with two component
integers `a`, `b` and a modulus `p` (stored as `mod`, the constructor's
first argument in the source calls `FP2Value(mod, a, b)`). -/
structure FP2Value where
  mod : Nat
  a : Nat
  b : Nat
deriving DecidableEq

/-- `BonehPublicKey`: fields `n`, `p`, `g`, `h`. -/
structure BonehPublicKey where
  n : Nat
  p : Nat
  g : FP2Value
  h : FP2Value
deriving DecidableEq

/-- `BonehPublicKey.serialize`: the six framed integers `n, p, g.a, g.b, h.a, h.b`. -/
def BonehPublicKey.serialize (k : BonehPublicKey) : List Nat :=
  _pack k.n ++ _pack k.p ++ _pack k.g.a ++ _pack k.g.b ++ _pack k.h.a ++ _pack k.h.b

/-- `BonehPrivateKey`: the public fields plus the secret integer `t1`. -/
structure BonehPrivateKey where
  n : Nat
  p : Nat
  g : FP2Value
  h : FP2Value
  t1 : Nat
deriving DecidableEq

/-- `BonehPrivateKey.serialize`: the public key's six frames followed by `_pack t1`. -/
def BonehPrivateKey.serialize (k : BonehPrivateKey) : List Nat :=
  _pack k.n ++ _pack k.p ++ _pack k.g.a ++ _pack k.g.b ++ _pack k.h.a ++ _pack k.h.b
    ++ _pack k.t1

/-- `BonehPrivateKey.public_key`: drop `t1`. -/
def BonehPrivateKey.public_key (k : BonehPrivateKey) : BonehPublicKey :=
  ⟨k.n, k.p, k.g, k.h⟩

/-- `BitPairAttestation`: three field elements. -/
structure BitPairAttestation where
  a : FP2Value
  b : FP2Value
  complement : FP2Value
deriving DecidableEq

/-- `BitPairAttestation.serialize`: six framed integers
`a.a, a.b, b.a, b.b, complement.a, complement.b`. -/
def BitPairAttestation.serialize (bp : BitPairAttestation) : List Nat :=
  _pack bp.a.a ++ _pack bp.a.b ++ _pack bp.b.a ++ _pack bp.b.b
    ++ _pack bp.complement.a ++ _pack bp.complement.b

/-- `Attestation`: a public key plus an ordered sequence of bit-pair attestations. -/
structure Attestation where
  PK : BonehPublicKey
  bitpairs : List BitPairAttestation
deriving DecidableEq

/-- `Attestation.serialize`: the key's bytes followed by each bit-pair's bytes. -/
def Attestation.serialize (att : Attestation) : List Nat :=
  att.PK.serialize ++ (att.bitpairs.map BitPairAttestation.serialize).flatten

/-- Fuel-driven version of the greedy loop
`while rem: unpacked, rem = _unpack(rem); nums.append(unpacked)`.
`fuel = rem.length` always suffices since `_unpack` consumes at least the
length-prefix byte. -/
def unpackAllGo : Nat → List Nat → List Nat
  | 0, _ => []
  | _ + 1, [] => []
  | f + 1, b :: rest => _str_to_num (rest.take b) :: unpackAllGo f (rest.drop b)

/-- All integers greedily decoded from a byte string, in order. -/
def unpackAll (s : List Nat) : List Nat :=
  unpackAllGo s.length s

/-- Result of `BonehPublicKey.unserialize` / `BonehPrivateKey.unserialize`
(the classmethod is shared; `cls` determines which constructor runs). -/
inductive BonehKey where
  | pub : BonehPublicKey → BonehKey
  | priv : BonehPrivateKey → BonehKey
deriving DecidableEq

/-- The classmethod `BonehPublicKey.unserialize(cls, s, force_public=False)`,
inherited by `BonehPrivateKey`.  `isPrivateCls` says on which class it was
invoked.  `none` models the exceptions the Python code raises:
`IndexError` when fewer than 6 values were collected, `IndexError` on
`nums[6]` when the guard `len(nums) > 5` passes with exactly 6 values,
and `TypeError` when `cls(*inits)` receives the wrong argument count
(4 values for the private class or 5 for the public class). -/
def unserializeKey (isPrivateCls : Bool) (s : List Nat) ( force_public : Bool) :
    Option BonehKey :=
  let nums := unpackAll s
  if nums.length < 6 then none
  else if force_public = false ∧ 5 < nums.length then
    if nums.length < 7 then none
    else if isPrivateCls = true then
      some (BonehKey.priv ⟨nums.getD 0 0, nums.getD 1 0,
        ⟨nums.getD 1 0, nums.getD 2 0, nums.getD 3 0⟩,
        ⟨nums.getD 1 0, nums.getD 4 0, nums.getD 5 0⟩, nums.getD 6 0⟩)
    else none
  else if isPrivateCls = true then none
  else some (BonehKey.pub ⟨nums.getD 0 0, nums.getD 1 0,
    ⟨nums.getD 1 0, nums.getD 2 0, nums.getD 3 0⟩,
    ⟨nums.getD 1 0, nums.getD 4 0, nums.getD 5 0⟩⟩)

/-- The loop `while rem and len(nums) < 6`: collect at most `k` framed
integers from the front of `s`. -/
def unpackUpTo : Nat → List Nat → List Nat
  | 0, _ => []
  | _ + 1, [] => []
  | k + 1, b :: rest => _str_to_num (rest.take b) :: unpackUpTo k (rest.drop b)

/-- `BitPairAttestation.unserialize(s, p)`: decode up to six integers from
the front of `s` and build the three field elements with the externally
supplied modulus `p`.  `none` models the `IndexError` when fewer than six
values are available. -/
def BitPairAttestation.unserialize (s : List Nat) (p : Nat) :
    Option BitPairAttestation :=
  let nums := unpackUpTo 6 s
  if nums.length < 6 then none
  else some ⟨⟨p, nums.getD 0 0, nums.getD 1 0⟩,
    ⟨p, nums.getD 2 0, nums.getD 3 0⟩,
    ⟨p, nums.getD 4 0, nums.getD 5 0⟩⟩

/-- Fuel-driven version of the loop in `Attestation.unserialize`:
decode a bit pair, append it, advance the tail by the length of the bit
pair's re-serialization.  `fuel = rem.length` always suffices since each
successful iteration drops at least 12 bytes. -/
def attLoopGo : Nat → Nat → List Nat → Option (List BitPairAttestation)
  | _, _, [] => some []
  | 0, _, _ :: _ => none
  | f + 1, p, b :: rest =>
    match BitPairAttestation.unserialize (b :: rest) p with
    | none => none
    | some att =>
      (attLoopGo f p ((b :: rest).drop att.serialize.length)).map (att :: ·)

/-- The bit-pair collection loop of `Attestation.unserialize`. -/
def attLoop (p : Nat) (rem : List Nat) : Option (List BitPairAttestation) :=
  attLoopGo rem.length p rem

/-- `Attestation.unserialize(s)`: decode the public key from the whole
buffer with `force_public=True`, skip its re-serialized length, then
collect bit pairs until the tail is empty. -/
def Attestation.unserialize (s : List Nat) : Option Attestation :=
  match unserializeKey false s true with
  | some (BonehKey.pub PK) =>
    (attLoop PK.p (s.drop PK.serialize.length)).map (Attestation.mk PK)
  | _ => none

/-- A field element is well-formed for modulus `p` when its stored modulus
is `p` and both components' encodings fit one frame. -/
def FP2Value.wf (v : FP2Value) (p : Nat) : Prop :=
  v.mod = p ∧ fits v.a ∧ fits v.b

instance (v : FP2Value) (p : Nat) : Decidable (v.wf p) := by
  unfold FP2Value.wf; infer_instance

/-- A public key is well-formed when all integer fields fit one frame and
both field elements carry the key's modulus `p`. -/
def BonehPublicKey.wf (k : BonehPublicKey) : Prop :=
  fits k.n ∧ fits k.p ∧ k.g.wf k.p ∧ k.h.wf k.p

instance (k : BonehPublicKey) : Decidable k.wf := by
  unfold BonehPublicKey.wf; infer_instance

/-- A private key is well-formed when its public part is and `t1` fits. -/
def BonehPrivateKey.wf (k : BonehPrivateKey) : Prop :=
  fits k.n ∧ fits k.p ∧ k.g.wf k.p ∧ k.h.wf k.p ∧ fits k.t1

instance (k : BonehPrivateKey) : Decidable k.wf := by
  unfold BonehPrivateKey.wf; infer_instance

/-- A bit-pair attestation is well-formed for modulus `p` when its three
field elements are. -/
def BitPairAttestation.wf (bp : BitPairAttestation) (p : Nat) : Prop :=
  bp.a.wf p ∧ bp.b.wf p ∧ bp.complement.wf p

instance (bp : BitPairAttestation) (p : Nat) : Decidable (bp.wf p) := by
  unfold BitPairAttestation.wf; infer_instance

/- ---------------------------------------------------------------- -/
/- Basic lemmas about the integer codec.                             -/
/- ---------------------------------------------------------------- -/

theorem shift_or_byte (a b : Nat) (hb : b < 256) : (a <<< 8) ||| b = a * 256 + b := by
  have h1 : a <<< 8 = a * 256 := by
    rw [Nat.shiftLeft_eq]
  have hb' : b < 2 ^ 8 := lt_of_lt_of_eq hb (by norm_num : (256 : Nat) = 2 ^ 8)
  have h2 : (2 : Nat) ^ 8 * a + b = 2 ^ 8 * a ||| b :=
    Nat.mul_add_lt_is_or hb' a
  rw [h1]
  calc a * 256 ||| b = 2 ^ 8 * a ||| b := by ring_nf
    _ = 2 ^ 8 * a + b := h2.symm
    _ = a * 256 + b := by ring

theorem strToNum_eq_beVal (s : List Nat) (h : ∀ b ∈ s, b < 256) :
    _str_to_num s = beVal s := by
  unfold _str_to_num beVal
  suffices H : ∀ (l : List Nat), (∀ b ∈ l, b < 256) → ∀ (acc : Nat),
      l.foldl (fun out b => (out <<< 8) ||| b) acc =
      l.foldl (fun out b => out * 256 + b) acc by
    exact H s h 0
  intro l hl
  induction l with
  | nil => intro acc; rfl
  | cons b t ih =>
    intro acc
    simp only [List.foldl_cons]
    rw [shift_or_byte acc b (hl b (by simp))]
    exact ih (fun x hx => hl x (by simp [hx])) _

theorem beVal_foldl (l : List Nat) :
    ∀ acc : Nat, l.foldl (fun out b => out * 256 + b) acc =
      acc * 256 ^ l.length + beVal l := by
  induction l with
  | nil => intro acc; simp [beVal]
  | cons b t ih =>
    intro acc
    have hb : beVal (b :: t) = b * 256 ^ t.length + beVal t := by
      unfold beVal
      simp only [List.foldl_cons]
      rw [ih (0 * 256 + b)]
      simp [beVal]
    simp only [List.foldl_cons]
    rw [ih (acc * 256 + b), hb]
    simp [List.length_cons, pow_succ]
    ring

theorem beVal_append (l1 l2 : List Nat) :
    beVal (l1 ++ l2) = beVal l1 * 256 ^ l2.length + beVal l2 := by
  unfold beVal
  rw [List.foldl_append]
  exact beVal_foldl l2 (beVal l1)

theorem numToStrGo_beVal : ∀ f n, n ≤ f → beVal (numToStrGo f n) = n := by
  intro f
  induction f with
  | zero =>
    intro n hn
    interval_cases n
    simp [numToStrGo, beVal]
  | succ f ih =>
    intro n hn
    unfold numToStrGo
    by_cases h : n < 256
    · simp [h, beVal]
    · simp only [h, if_false]
      rw [beVal_append]
      have hdiv : n / 256 ≤ f := by
        have : n / 256 < n := Nat.div_lt_self (by omega) (by norm_num)
        omega
      rw [ih (n / 256) hdiv]
      simp [beVal]
      omega

theorem numToStrGo_bytes_lt : ∀ f n, ∀ d ∈ numToStrGo f n, d < 256 := by
  intro f
  induction f with
  | zero =>
    intro n d hd
    simp [numToStrGo] at hd
    omega
  | succ f ih =>
    intro n d hd
    unfold numToStrGo at hd
    by_cases h : n < 256
    · simp [h] at hd; omega
    · simp only [h, if_false, List.mem_append, List.mem_singleton] at hd
      rcases hd with hd | hd
      · exact ih _ d hd
      · omega

theorem numToStrGo_ne_nil : ∀ f n, numToStrGo f n ≠ [] := by
  intro f n
  cases f with
  | zero => simp [numToStrGo]
  | succ f =>
    unfold numToStrGo
    by_cases h : n < 256 <;> simp [h]

theorem num_to_str_bytes_lt (n : Nat) : ∀ d ∈ _num_to_str n, d < 256 := by
  unfold _num_to_str
  by_cases h : n = 0
  · simp [h]
  · simp only [h, if_false]
    exact numToStrGo_bytes_lt n n

theorem num_to_str_beVal (n : Nat) : beVal (_num_to_str n) = n := by
  unfold _num_to_str
  by_cases h : n = 0
  · simp [h, beVal]
  · simp only [h, if_false]
    exact numToStrGo_beVal n n le_rfl

theorem str_to_num_num_to_str (n : Nat) : _str_to_num (_num_to_str n) = n := by
  rw [strToNum_eq_beVal _ (num_to_str_bytes_lt n)]
  exact num_to_str_beVal n

theorem num_to_str_ne_nil (n : Nat) : _num_to_str n ≠ [] := by
  unfold _num_to_str
  by_cases h : n = 0
  · simp [h]
  · simp only [h, if_false]
    exact numToStrGo_ne_nil n n

theorem num_to_str_small (n : Nat) (h : n < 256) : _num_to_str n = [n] := by
  unfold _num_to_str
  by_cases h0 : n = 0
  · simp [h0]
  · simp only [h0, if_false]
    cases hn : n with
    | zero => exact absurd hn h0
    | succ m =>
      unfold numToStrGo
      simp [hn ▸ h]

theorem pack_cons (n : Nat) (h : fits n) :
    _pack n = (_num_to_str n).length :: _num_to_str n := by
  unfold _pack
  rw [num_to_str_small (_num_to_str n).length (by unfold fits at h; omega)]
  rfl

theorem unpack_pack (n : Nat) (h : fits n) (t : List Nat) :
    _unpack (_pack n ++ t) = some (n, t) := by
  rw [pack_cons n h]
  unfold _unpack
  simp only [List.cons_append]
  rw [List.take_append_eq_append_take, List.take_length, Nat.sub_self,
    List.take_zero, List.append_nil,
    List.drop_append_eq_append_drop, List.drop_length, Nat.sub_self,
    List.drop_zero, List.nil_append]
  rw [str_to_num_num_to_str n]

theorem pack_length_ge_two (n : Nat) : 2 ≤ (_pack n).length := by
  unfold _pack
  rw [List.length_append]
  have h1 := num_to_str_ne_nil n
  have h2 := num_to_str_ne_nil (_num_to_str n).length
  have l1 : 1 ≤ (_num_to_str n).length := List.length_pos.mpr h1
  have l2 : 1 ≤ (_num_to_str (_num_to_str n).length).length := List.length_pos.mpr h2
  omega

/- ---------------------------------------------------------------- -/
/- Lemmas about the greedy decoding loop.                            -/
/- ---------------------------------------------------------------- -/

theorem unpackAllGo_fuel : ∀ f₁ f₂ (s : List Nat), s.length ≤ f₁ → s.length ≤ f₂ →
    unpackAllGo f₁ s = unpackAllGo f₂ s := by
  intro f₁
  induction f₁ with
  | zero =>
    intro f₂ s h₁ _
    have hs : s = [] := List.length_eq_zero.mp (by omega)
    subst hs
    cases f₂ <;> rfl
  | succ f ih =>
    intro f₂ s h₁ h₂
    cases s with
    | nil => cases f₂ <;> rfl
    | cons b rest =>
      cases f₂ with
      | zero => simp at h₂
      | succ f' =>
        unfold unpackAllGo
        have hd : (rest.drop b).length ≤ rest.length := by
          rw [List.length_drop]; omega
        have hr : rest.length ≤ f := by simpa using h₁
        have hr' : rest.length ≤ f' := by simpa using h₂
        rw [ih f' (rest.drop b) (by omega) (by omega)]

theorem unpackAll_nil : unpackAll [] = [] := rfl

theorem unpackAll_cons (b : Nat) (rest : List Nat) :
    unpackAll (b :: rest) = _str_to_num (rest.take b) :: unpackAll (rest.drop b) := by
  unfold unpackAll
  simp only [List.length_cons]
  rw [show unpackAllGo (rest.length + 1) (b :: rest)
      = _str_to_num (rest.take b) :: unpackAllGo rest.length (rest.drop b) from rfl]
  congr 1
  exact unpackAllGo_fuel rest.length (rest.drop b).length (rest.drop b)
    (by rw [List.length_drop]; omega) le_rfl

theorem unpackAll_pack (n : Nat) (h : fits n) (t : List Nat) :
    unpackAll (_pack n ++ t) = n :: unpackAll t := by
  rw [pack_cons n h, List.cons_append, unpackAll_cons]
  rw [List.take_append_eq_append_take, List.take_length, Nat.sub_self,
    List.take_zero, List.append_nil,
    List.drop_append_eq_append_drop, List.drop_length, Nat.sub_self,
    List.drop_zero, List.nil_append]
  rw [str_to_num_num_to_str n]

theorem packs_nil : packs [] = [] := rfl

theorem packs_cons (x : Nat) (xs : List Nat) :
    packs (x :: xs) = _pack x ++ packs xs := by
  simp [packs]

theorem unpackAll_packs : ∀ (xs : List Nat), (∀ x ∈ xs, fits x) →
    ∀ t, unpackAll (packs xs ++ t) = xs ++ unpackAll t := by
  intro xs
  induction xs with
  | nil => intro _ t; simp [packs_nil]
  | cons x xs ih =>
    intro h t
    rw [packs_cons, List.append_assoc,
      unpackAll_pack x (h x (by simp)) (packs xs ++ t),
      ih (fun y hy => h y (by simp [hy])) t]
    rfl

theorem unpackAll_packs_closed (xs : List Nat) (h : ∀ x ∈ xs, fits x) :
    unpackAll (packs xs) = xs := by
  have := unpackAll_packs xs h []
  simpa [unpackAll_nil] using this

/-- Decoding any prefix of a concatenation of frames yields at most one
value per frame: the partial last frame is swallowed into a single
(possibly wrong) value because `List.take` truncates silently. -/
theorem unpackAll_take_packs_le : ∀ (xs : List Nat), (∀ x ∈ xs, fits x) →
    ∀ m, (unpackAll ((packs xs).take m)).length ≤ xs.length := by
  intro xs
  induction xs with
  | nil => intro _ m; simp [packs_nil, unpackAll_nil]
  | cons x xs ih =>
    intro h m
    rw [packs_cons, pack_cons x (h x (by simp)), List.cons_append]
    cases m with
    | zero => simp [unpackAll_nil]
    | succ m' =>
      rw [List.take_succ_cons, unpackAll_cons]
      have hdt : ((_num_to_str x ++ packs xs).take m').drop (_num_to_str x).length
          = (packs xs).take (m' - (_num_to_str x).length) := by
        rw [List.drop_take, List.drop_append_eq_append_drop, List.drop_length,
          Nat.sub_self, List.drop_zero, List.nil_append]
      rw [hdt]
      simp only [List.length_cons]
      have := ih (fun y hy => h y (by simp [hy])) (m' - (_num_to_str x).length)
      omega

/- ---------------------------------------------------------------- -/
/- Length bounds for the byte encoding.                              -/
/- ---------------------------------------------------------------- -/

theorem numToStrGo_len_le : ∀ f k n, n < 256 ^ (k + 1) →
    (numToStrGo f n).length ≤ k + 1 := by
  intro f
  induction f with
  | zero => intro k n _; simp [numToStrGo]
  | succ f ih =>
    intro k n hn
    unfold numToStrGo
    by_cases h : n < 256
    · simp [h]
    · simp only [h, if_false, List.length_append, List.length_singleton]
      cases k with
      | zero => simp at hn; omega
      | succ k' =>
        have hdiv : n / 256 < 256 ^ (k' + 1) := by
          rw [Nat.div_lt_iff_lt_mul (by norm_num : 0 < 256)]
          calc n < 256 ^ (k' + 1 + 1) := hn
            _ = 256 ^ (k' + 1) * 256 := by ring
        have := ih k' (n / 256) hdiv
        omega

theorem numToStrGo_len_ge : ∀ f n k, 256 ^ k ≤ n → n ≤ f →
    k + 1 ≤ (numToStrGo f n).length := by
  intro f
  induction f with
  | zero =>
    intro n k hk hn
    have : (0 : Nat) < 256 ^ k := Nat.pos_pow_of_pos k (by norm_num)
    omega
  | succ f ih =>
    intro n k hk hn
    unfold numToStrGo
    by_cases h : n < 256
    · have hk0 : k = 0 := by
        by_contra hne
        have : (256 : Nat) ≤ 256 ^ k := Nat.le_self_pow hne 256
        omega
      simp [h, hk0]
    · simp only [h, if_false, List.length_append, List.length_singleton]
      cases k with
      | zero => omega
      | succ k' =>
        have hdivk : 256 ^ k' ≤ n / 256 := by
          rw [Nat.le_div_iff_mul_le (by norm_num : 0 < 256)]
          calc 256 ^ k' * 256 = 256 ^ (k' + 1) := by ring
            _ ≤ n := hk
        have hdivf : n / 256 ≤ f := by
          have : n / 256 < n := Nat.div_lt_self (by omega) (by norm_num)
          omega
        have := ih (n / 256) k' hdivk hdivf
        omega

theorem num_to_str_len_pow255 : (_num_to_str (256 ^ 255)).length = 256 := by
  have hne : (256 : Nat) ^ 255 ≠ 0 := by positivity
  unfold _num_to_str
  simp only [hne, if_false]
  have hlt : (256 : Nat) ^ 255 < 256 ^ (255 + 1) :=
    Nat.pow_lt_pow_right (by norm_num) (by omega)
  have h1 := numToStrGo_len_le (256 ^ 255) 255 (256 ^ 255) hlt
  have h2 := numToStrGo_len_ge (256 ^ 255) (256 ^ 255) 255 le_rfl le_rfl
  omega

theorem num_to_str_len_ge_two (n : Nat) (h : 256 ≤ n) :
    2 ≤ (_num_to_str n).length := by
  unfold _num_to_str
  have hne : n ≠ 0 := by omega
  simp only [hne, if_false]
  have := numToStrGo_len_ge n n 1 (by simpa using h) le_rfl
  omega

/- ---------------------------------------------------------------- -/
/- Serializers as frame sequences.                                   -/
/- ---------------------------------------------------------------- -/

theorem serialize_pub_packs (k : BonehPublicKey) :
    k.serialize = packs [k.n, k.p, k.g.a, k.g.b, k.h.a, k.h.b] := by
  simp [BonehPublicKey.serialize, packs]

theorem serialize_priv_packs (k : BonehPrivateKey) :
    k.serialize = packs [k.n, k.p, k.g.a, k.g.b, k.h.a, k.h.b, k.t1] := by
  simp [BonehPrivateKey.serialize, packs]

theorem serialize_bp_packs (bp : BitPairAttestation) :
    bp.serialize = packs [bp.a.a, bp.a.b, bp.b.a, bp.b.b, bp.complement.a, bp.complement.b] := by
  simp [BitPairAttestation.serialize, packs]

theorem bp_serialize_len (bp : BitPairAttestation) : 12 ≤ bp.serialize.length := by
  unfold BitPairAttestation.serialize
  simp only [List.length_append]
  have h1 := pack_length_ge_two bp.a.a
  have h2 := pack_length_ge_two bp.a.b
  have h3 := pack_length_ge_two bp.b.a
  have h4 := pack_length_ge_two bp.b.b
  have h5 := pack_length_ge_two bp.complement.a
  have h6 := pack_length_ge_two bp.complement.b
  omega

theorem unserialize_serialize_pub (k : BonehPublicKey) (hw : k.wf) :
    unserializeKey false k.serialize true = some (BonehKey.pub k) := by
  obtain ⟨hn, hp, ⟨hgm, hga, hgb⟩, ⟨hhm, hha, hhb⟩⟩ := hw
  have hall : ∀ x ∈ [k.n, k.p, k.g.a, k.g.b, k.h.a, k.h.b], fits x := by
    intro x hx
    simp only [List.mem_cons, List.not_mem_nil, or_false] at hx
    rcases hx with h | h | h | h | h | h <;> subst h <;> assumption
  have hnums : unpackAll k.serialize = [k.n, k.p, k.g.a, k.g.b, k.h.a, k.h.b] := by
    rw [serialize_pub_packs]
    exact unpackAll_packs_closed _ hall
  unfold unserializeKey
  rw [hnums]
  norm_num
  obtain ⟨n, p, ⟨gm, ga, gb⟩, ⟨hm, ha, hb⟩⟩ := k
  simp only at hgm hhm
  subst hgm
  subst hhm
  rfl

/- ---------------------------------------------------------------- -/
/- Claims.                                                           -/
/- ---------------------------------------------------------------- -/

/-- C1: the round trip `deserialize(serialize(x)) == x` fails for `PublicKey`:
deserializing the exact bytes of a serialized public key (with the default
`force_public = False`) hits the guard `len(nums) > 5` with exactly 6 values
and then evaluates the non-existent `nums[6]`, raising `IndexError`
(modelled as `none`) instead of returning the key. -/
theorem claim_C1_failing_eval :
    unserializeKey false
      (BonehPublicKey.serialize ⟨1, 2, ⟨2, 3, 4⟩, ⟨2, 5, 6⟩⟩) false = none := by
  decide

/-- C2 counterexample: a valid serialized `PrivateKey` buffer (14 bytes)
truncated at offset 13 — strictly before the final byte — deserializes
without any error to a private key whose `t1` is `0` instead of `7`:
a silently-wrong value. -/
theorem claim_C2_counterexample :
    (BonehPrivateKey.serialize ⟨1, 2, ⟨2, 3, 4⟩, ⟨2, 5, 6⟩, 7⟩).length = 14
    ∧ unserializeKey true
        ((BonehPrivateKey.serialize ⟨1, 2, ⟨2, 3, 4⟩, ⟨2, 5, 6⟩, 7⟩).take 13) false
        = some (BonehKey.priv ⟨1, 2, ⟨2, 3, 4⟩, ⟨2, 5, 6⟩, 0⟩)
    ∧ BonehKey.priv (⟨1, 2, ⟨2, 3, 4⟩, ⟨2, 5, 6⟩, 0⟩ : BonehPrivateKey)
        ≠ BonehKey.priv ⟨1, 2, ⟨2, 3, 4⟩, ⟨2, 5, 6⟩, 7⟩ := by
  decide

/-- C2 (amended): truncating a valid serialized `PublicKey` buffer at any
offset strictly before the final byte does make key deserialization
(`force_public = False`) fail — at most one value is decoded per frame, so at
most 6 values arrive and the code errors out; but for `PrivateKey` (and
`Attestation`) buffers a truncation can instead return a silently-wrong
value, so the original claim is false. -/
theorem claim_C2_amended (k : BonehPublicKey) (hw : k.wf) (m : Nat)
    (hm : m < k.serialize.length) :
    unserializeKey false (k.serialize.take m) false = none := by
  obtain ⟨hn, hp, ⟨hgm, hga, hgb⟩, ⟨hhm, hha, hhb⟩⟩ := hw
  have hall : ∀ x ∈ [k.n, k.p, k.g.a, k.g.b, k.h.a, k.h.b], fits x := by
    intro x hx
    simp only [List.mem_cons, List.not_mem_nil, or_false] at hx
    rcases hx with h | h | h | h | h | h <;> subst h <;> assumption
  have hle : (unpackAll (k.serialize.take m)).length ≤ 6 := by
    rw [serialize_pub_packs]
    exact unpackAll_take_packs_le _ hall m
  by_cases h6 : (unpackAll (k.serialize.take m)).length < 6
  · simp [unserializeKey, h6]
  · have h6' : (unpackAll (k.serialize.take m)).length = 6 := by omega
    simp [unserializeKey, h6']

/-- C2 witness: a concrete well-formed public key truncated at offset 3. -/
theorem claim_C2_witness :
    (BonehPublicKey.wf ⟨1, 2, ⟨2, 3, 4⟩, ⟨2, 5, 6⟩⟩
      ∧ 3 < (BonehPublicKey.serialize ⟨1, 2, ⟨2, 3, 4⟩, ⟨2, 5, 6⟩⟩).length)
    ∧ unserializeKey false
        ((BonehPublicKey.serialize ⟨1, 2, ⟨2, 3, 4⟩, ⟨2, 5, 6⟩⟩).take 3) false = none :=
  ⟨⟨by decide, by decide⟩,
    claim_C2_amended ⟨1, 2, ⟨2, 3, 4⟩, ⟨2, 5, 6⟩⟩ (by decide) 3 (by decide)⟩

/-- C3 counterexample: a buffer decoding to exactly 6 framed integers (a
serialized public key) with `force_public = False` satisfies "more than 5
values were collected", yet no `PrivateKey` is produced: the access
`nums[6]` raises `IndexError` (modelled as `none`) on either class. -/
theorem claim_C3_counterexample :
    5 < (unpackAll (BonehPublicKey.serialize ⟨1, 2, ⟨2, 3, 4⟩, ⟨2, 5, 6⟩⟩)).length
    ∧ unserializeKey true
        (BonehPublicKey.serialize ⟨1, 2, ⟨2, 3, 4⟩, ⟨2, 5, 6⟩⟩) false = none
    ∧ unserializeKey false
        (BonehPublicKey.serialize ⟨1, 2, ⟨2, 3, 4⟩, ⟨2, 5, 6⟩⟩) false = none := by
  decide

/-- C3 (amended): for every byte string whose greedy decode collects at
least 6 values, the first 6 collected values build `n, p, g, h`; with
`force_public = True` (on the public-key class) a `PublicKey` is produced;
if `force_public` is false and **more than 6** values were collected, the
7th becomes `t1` and a `PrivateKey` is produced (on the private-key class);
if `force_public` is false and exactly 6 values were collected,
deserialization fails. -/
theorem claim_C3_amended (s : List Nat) (h6 : 6 ≤ (unpackAll s).length) :
    unserializeKey false s true
      = some (BonehKey.pub ⟨(unpackAll s).getD 0 0, (unpackAll s).getD 1 0,
          ⟨(unpackAll s).getD 1 0, (unpackAll s).getD 2 0, (unpackAll s).getD 3 0⟩,
          ⟨(unpackAll s).getD 1 0, (unpackAll s).getD 4 0, (unpackAll s).getD 5 0⟩⟩)
    ∧ (7 ≤ (unpackAll s).length →
        unserializeKey true s false
          = some (BonehKey.priv ⟨(unpackAll s).getD 0 0, (unpackAll s).getD 1 0,
              ⟨(unpackAll s).getD 1 0, (unpackAll s).getD 2 0, (unpackAll s).getD 3 0⟩,
              ⟨(unpackAll s).getD 1 0, (unpackAll s).getD 4 0, (unpackAll s).getD 5 0⟩,
              (unpackAll s).getD 6 0⟩))
    ∧ ((unpackAll s).length = 6 → unserializeKey true s false = none) := by
  refine ⟨?_, ?_, ?_⟩
  · have h1 : ¬ (unpackAll s).length < 6 := by omega
    simp [unserializeKey, h1]
  · intro h7
    have h1 : ¬ (unpackAll s).length < 6 := by omega
    have h5 : 5 < (unpackAll s).length := by omega
    have h7' : ¬ (unpackAll s).length < 7 := by omega
    simp [unserializeKey, h1, h5, h7']
  · intro hex
    have h1 : ¬ (unpackAll s).length < 6 := by omega
    have h5 : 5 < (unpackAll s).length := by omega
    have h7 : (unpackAll s).length < 7 := by omega
    simp [unserializeKey, h1, h5, h7]

/-- C3 witness: a concrete 7-frame buffer (a serialized private key). -/
theorem claim_C3_witness :
    6 ≤ (unpackAll (BonehPrivateKey.serialize ⟨1, 2, ⟨2, 3, 4⟩, ⟨2, 5, 6⟩, 7⟩)).length
    ∧ (unserializeKey false (BonehPrivateKey.serialize ⟨1, 2, ⟨2, 3, 4⟩, ⟨2, 5, 6⟩, 7⟩) true
        = some (BonehKey.pub ⟨(unpackAll (BonehPrivateKey.serialize ⟨1, 2, ⟨2, 3, 4⟩, ⟨2, 5, 6⟩, 7⟩)).getD 0 0,
            (unpackAll (BonehPrivateKey.serialize ⟨1, 2, ⟨2, 3, 4⟩, ⟨2, 5, 6⟩, 7⟩)).getD 1 0,
            ⟨(unpackAll (BonehPrivateKey.serialize ⟨1, 2, ⟨2, 3, 4⟩, ⟨2, 5, 6⟩, 7⟩)).getD 1 0,
              (unpackAll (BonehPrivateKey.serialize ⟨1, 2, ⟨2, 3, 4⟩, ⟨2, 5, 6⟩, 7⟩)).getD 2 0,
              (unpackAll (BonehPrivateKey.serialize ⟨1, 2, ⟨2, 3, 4⟩, ⟨2, 5, 6⟩, 7⟩)).getD 3 0⟩,
            ⟨(unpackAll (BonehPrivateKey.serialize ⟨1, 2, ⟨2, 3, 4⟩, ⟨2, 5, 6⟩, 7⟩)).getD 1 0,
              (unpackAll (BonehPrivateKey.serialize ⟨1, 2, ⟨2, 3, 4⟩, ⟨2, 5, 6⟩, 7⟩)).getD 4 0,
              (unpackAll (BonehPrivateKey.serialize ⟨1, 2, ⟨2, 3, 4⟩, ⟨2, 5, 6⟩, 7⟩)).getD 5 0⟩⟩)
      ∧ (7 ≤ (unpackAll (BonehPrivateKey.serialize ⟨1, 2, ⟨2, 3, 4⟩, ⟨2, 5, 6⟩, 7⟩)).length →
          unserializeKey true (BonehPrivateKey.serialize ⟨1, 2, ⟨2, 3, 4⟩, ⟨2, 5, 6⟩, 7⟩) false
            = some (BonehKey.priv ⟨(unpackAll (BonehPrivateKey.serialize ⟨1, 2, ⟨2, 3, 4⟩, ⟨2, 5, 6⟩, 7⟩)).getD 0 0,
                (unpackAll (BonehPrivateKey.serialize ⟨1, 2, ⟨2, 3, 4⟩, ⟨2, 5, 6⟩, 7⟩)).getD 1 0,
                ⟨(unpackAll (BonehPrivateKey.serialize ⟨1, 2, ⟨2, 3, 4⟩, ⟨2, 5, 6⟩, 7⟩)).getD 1 0,
                  (unpackAll (BonehPrivateKey.serialize ⟨1, 2, ⟨2, 3, 4⟩, ⟨2, 5, 6⟩, 7⟩)).getD 2 0,
                  (unpackAll (BonehPrivateKey.serialize ⟨1, 2, ⟨2, 3, 4⟩, ⟨2, 5, 6⟩, 7⟩)).getD 3 0⟩,
                ⟨(unpackAll (BonehPrivateKey.serialize ⟨1, 2, ⟨2, 3, 4⟩, ⟨2, 5, 6⟩, 7⟩)).getD 1 0,
                  (unpackAll (BonehPrivateKey.serialize ⟨1, 2, ⟨2, 3, 4⟩, ⟨2, 5, 6⟩, 7⟩)).getD 4 0,
                  (unpackAll (BonehPrivateKey.serialize ⟨1, 2, ⟨2, 3, 4⟩, ⟨2, 5, 6⟩, 7⟩)).getD 5 0⟩,
                (unpackAll (BonehPrivateKey.serialize ⟨1, 2, ⟨2, 3, 4⟩, ⟨2, 5, 6⟩, 7⟩)).getD 6 0⟩))
      ∧ ((unpackAll (BonehPrivateKey.serialize ⟨1, 2, ⟨2, 3, 4⟩, ⟨2, 5, 6⟩, 7⟩)).length = 6 →
          unserializeKey true (BonehPrivateKey.serialize ⟨1, 2, ⟨2, 3, 4⟩, ⟨2, 5, 6⟩, 7⟩) false = none)) :=
  ⟨by decide, claim_C3_amended (BonehPrivateKey.serialize ⟨1, 2, ⟨2, 3, 4⟩, ⟨2, 5, 6⟩, 7⟩) (by decide)⟩

/-- C4 counterexample: for `n = 256^255`, whose canonical encoding is 256
bytes (more than 255), `_pack` does not fail at all: it produces a 258-byte
output — a two-byte length field followed by the 256-byte body — so a frame
output with a body longer than 255 bytes does exist. -/
theorem claim_C4_counterexample :
    255 < (_num_to_str (256 ^ 255)).length ∧ (_pack (256 ^ 255)).length = 258 := by
  have h := num_to_str_len_pow255
  constructor
  · omega
  · unfold _pack
    rw [List.length_append, h]
    have h2 : (_num_to_str 256).length = 2 := by decide
    rw [h2]

/-- C4 (amended): `_pack` never fails.  For every `n` it emits
`_num_to_str(len(body)) ++ body`; when the body exceeds 255 bytes the
length field itself silently becomes two or more bytes (so the one-byte
length-prefix invariant is broken rather than enforced by a
`CapacityExceeded` error). -/
theorem claim_C4_amended (n : Nat) (h : 255 < (_num_to_str n).length) :
    _pack n = _num_to_str (_num_to_str n).length ++ _num_to_str n
    ∧ 2 ≤ (_num_to_str (_num_to_str n).length).length :=
  ⟨rfl, num_to_str_len_ge_two _ (by omega)⟩

/-- C4 witness: the amended claim at `n = 256^255`. -/
theorem claim_C4_witness :
    255 < (_num_to_str (256 ^ 255)).length
    ∧ (_pack (256 ^ 255) = _num_to_str (_num_to_str (256 ^ 255)).length ++ _num_to_str (256 ^ 255)
      ∧ 2 ≤ (_num_to_str (_num_to_str (256 ^ 255)).length).length) := by
  have h : 255 < (_num_to_str (256 ^ 255)).length := by
    rw [num_to_str_len_pow255]; omega
  exact ⟨h, claim_C4_amended (256 ^ 255) h⟩

/-- C5 counterexample: the buffer `[5, 97, 98]` declares length `L = 5` but
holds only 3 < 6 bytes; `_unpack` does not fail — it silently returns the
integer decoded from the two available body bytes and an empty tail. -/
theorem claim_C5_counterexample :
    ([5, 97, 98] : List Nat).length < 5 + 1
    ∧ _unpack [5, 97, 98] = some (24930, []) := by
  decide

/-- C5 (amended): when the first byte declares length `b` and fewer than
`b` bytes follow, `_unpack` does not fail with `TruncatedInput`: it returns
the integer decoded from all remaining bytes together with an empty tail.
`_unpack` fails only on the empty string (`IndexError` on `s[0]`). -/
theorem claim_C5_amended (b : Nat) (rest : List Nat) (h : rest.length < b) :
    _unpack (b :: rest) = some (_str_to_num rest, []) ∧ _unpack [] = none := by
  constructor
  · show some (_str_to_num (rest.take b), rest.drop b) = some (_str_to_num rest, [])
    rw [List.take_of_length_le (by omega), List.drop_eq_nil_of_le (by omega)]
  · rfl

/-- C5 witness: the amended claim at the counterexample's input. -/
theorem claim_C5_witness :
    ([97, 98] : List Nat).length < 5
    ∧ (_unpack (5 :: [97, 98]) = some (_str_to_num [97, 98], []) ∧ _unpack [] = none) :=
  ⟨by decide, claim_C5_amended 5 [97, 98] (by decide)⟩

/-- C6: the integer codec round-trips (`_str_to_num (_num_to_str n) = n`
for every `n`), `0` encodes as the single byte `0x00`, `255` as the single
byte `0xFF`, and `256` as the two bytes `0x01 0x00`. -/
theorem claim_C6 :
    (∀ n : Nat, _str_to_num (_num_to_str n) = n)
    ∧ _num_to_str 0 = [0]
    ∧ _num_to_str 255 = [255]
    ∧ _num_to_str 256 = [1, 0] :=
  ⟨str_to_num_num_to_str, by decide, by decide, by decide⟩

/-- C7: for every `n` whose canonical encoding fits the one-byte framing
limit, `_unpack (_pack n)` returns `n` together with an empty tail. -/
theorem claim_C7 (n : Nat) (h : fits n) : _unpack (_pack n) = some (n, []) := by
  have := unpack_pack n h []
  simpa using this

/-- C7 witness: the claim at `n = 256` (a two-byte body). -/
theorem claim_C7_witness : fits 256 ∧ _unpack (_pack 256) = some (256, []) :=
  ⟨by decide, claim_C7 256 (by decide)⟩

/-- C8: an `Attestation` with zero bit-pairs serializes to exactly the
bytes of `PK.serialize()`, and deserializing those bytes yields an
attestation with the same public key and zero bit-pairs. -/
theorem claim_C8 (k : BonehPublicKey) (hw : k.wf) :
    Attestation.serialize ⟨k, []⟩ = k.serialize
    ∧ Attestation.unserialize k.serialize = some ⟨k, []⟩ := by
  constructor
  · simp [Attestation.serialize]
  · unfold Attestation.unserialize
    rw [unserialize_serialize_pub k hw]
    show Option.map (Attestation.mk k)
      (attLoop k.p (k.serialize.drop k.serialize.length)) = some ⟨k, []⟩
    rw [List.drop_length]
    rfl

/-- C8 witness: a concrete well-formed public key. -/
theorem claim_C8_witness :
    BonehPublicKey.wf ⟨1, 2, ⟨2, 3, 4⟩, ⟨2, 5, 6⟩⟩
    ∧ (Attestation.serialize ⟨⟨1, 2, ⟨2, 3, 4⟩, ⟨2, 5, 6⟩⟩, []⟩
        = BonehPublicKey.serialize ⟨1, 2, ⟨2, 3, 4⟩, ⟨2, 5, 6⟩⟩
      ∧ Attestation.unserialize (BonehPublicKey.serialize ⟨1, 2, ⟨2, 3, 4⟩, ⟨2, 5, 6⟩⟩)
        = some ⟨⟨1, 2, ⟨2, 3, 4⟩, ⟨2, 5, 6⟩⟩, []⟩) :=
  ⟨by decide, claim_C8 ⟨1, 2, ⟨2, 3, 4⟩, ⟨2, 5, 6⟩⟩ (by decide)⟩

/-- C9: a frame whose first byte is `0x00` (declared length 0) is accepted:
`_unpack` returns the integer `0` and the tail after the length byte, and
`_str_to_num` of the empty byte string is `0`. -/
theorem claim_C9 :
    (∀ rest : List Nat, _unpack (0 :: rest) = some (0, rest))
    ∧ _str_to_num [] = 0 := by
  constructor
  · intro rest
    simp [_unpack, _str_to_num]
  · rfl

/-- C10: every successful `_unpack` strictly shrinks the buffer (it always
consumes at least the length-prefix byte), so the greedy decoding loops
terminate; and every `BitPairAttestation` re-serializes to at least 12
bytes (six frames of at least 2 bytes each), so the `Attestation`
decoding loop strictly advances its tail. -/
theorem claim_C10 :
    (∀ (s : List Nat) (v : Nat) (t : List Nat),
      _unpack s = some (v, t) → t.length < s.length)
    ∧ (∀ bp : BitPairAttestation, 12 ≤ bp.serialize.length) := by
  constructor
  · intro s v t h
    cases s with
    | nil => simp [_unpack] at h
    | cons b rest =>
      simp only [_unpack, Option.some_inj, Prod.mk.injEq] at h
      obtain ⟨-, ht⟩ := h
      rw [← ht, List.length_cons, List.length_drop]
      omega
  · exact bp_serialize_len

/-- C10 witness: the buffer `[0]` shrinks to `[]`, and a concrete bit pair
serializes to at least 12 bytes. -/
theorem claim_C10_witness :
    ([] : List Nat).length < ([0] : List Nat).length
    ∧ 12 ≤ (BitPairAttestation.serialize ⟨⟨2, 1, 1⟩, ⟨2, 1, 1⟩, ⟨2, 1, 1⟩⟩).length :=
  ⟨claim_C10.1 [0] 0 [] (by decide),
    claim_C10.2 ⟨⟨2, 1, 1⟩, ⟨2, 1, 1⟩, ⟨2, 1, 1⟩⟩⟩

end PyIPv8
